import Mathlib

/-!
Verification development for the Gaussian diffusion sampling core of
`guided_diffusion/gaussian_diffusion.py`.

The file shallowly embeds the schedule builder (`get_named_beta_schedule`,
`betas_for_alpha_bar`), the cumulative-statistics cache computed in
`GaussianDiffusion.__init__`, the time-step respacer (`space_timesteps`,
`SpacedDiffusion.__init__`), the model index remapping
(`_WrappedModel.__call__`, `SpacedDiffusion._scale_timesteps`), the two
step-transition rules (`DDPM.p_sample`, `DDIM.p_sample`) and the index
traversal of `GaussianDiffusion.p_sample_loop`.  Schedule arithmetic is
embedded over `ℚ` (the Python code computes in IEEE float64; exact rationals
model the intended exact-arithmetic semantics), transcendental quantities
over `ℝ`.  Batched tensors are modelled as lists over the batch dimension.
-/

namespace GaussianDiffusion

/-- Inclusive cumulative product: `prodUpTo l i` is `np.cumprod(l)[i]`, the
product of the first `i + 1` entries of `l`. -/
def prodUpTo (l : List ℚ) (i : ℕ) : ℚ := (l.take (i + 1)).prod

/-- Elementwise `alphas = 1.0 - betas` from `GaussianDiffusion.__init__`. -/
def alphasOf (betas : List ℚ) : List ℚ := betas.map (fun b => 1 - b)

/-- `self.alphas_cumprod = np.cumprod(alphas, axis=0)`. -/
def alphas_cumprod (betas : List ℚ) : List ℚ :=
  (List.range betas.length).map (fun i => prodUpTo (alphasOf betas) i)

/-- `self.alphas_cumprod_prev = np.append(1.0, self.alphas_cumprod[:-1])`. -/
def alphas_cumprod_prev (betas : List ℚ) : List ℚ :=
  1 :: (alphas_cumprod betas).dropLast

/-- `self.posterior_variance = betas * (1.0 - alphas_cumprod_prev) / (1.0 - alphas_cumprod)`
(elementwise over the schedule). -/
def posterior_variance (betas : List ℚ) : List ℚ :=
  (List.range betas.length).map (fun t =>
    betas.getD t 0 * (1 - (alphas_cumprod_prev betas).getD t 0)
      / (1 - (alphas_cumprod betas).getD t 0))

/-- `self.posterior_log_variance_clipped = np.log(np.append(posterior_variance[1], posterior_variance[1:]))`. -/
noncomputable def posterior_log_variance_clipped (betas : List ℚ) : List ℝ :=
  (((posterior_variance betas).getD 1 0) :: (posterior_variance betas).drop 1).map
    (fun q => Real.log (q : ℝ))

/-- The `SpacedDiffusion.__init__` loop over the enumerated `alphas_cumprod`:
a retained index `i` contributes the derived beta `1 - alpha_cumprod / last_alpha_cumprod`
and updates `last_alpha_cumprod`. -/
def spacedAux (use : ℕ → Bool) : List (ℕ × ℚ) → ℚ → List ℚ
  | [], _ => []
  | p :: rest, last =>
    if use p.1 then (1 - p.2 / last) :: spacedAux use rest p.2
    else spacedAux use rest last

/-- `enumerate(base_diffusion.alphas_cumprod)`. -/
def enumCumprod (betas : List ℚ) : List (ℕ × ℚ) :=
  (List.range betas.length).map (fun i => (i, prodUpTo (alphasOf betas) i))

/-- The `new_betas` list built by `SpacedDiffusion.__init__`
(`last_alpha_cumprod` starts at `1.0`). -/
def new_betas (betas : List ℚ) (use : ℕ → Bool) : List ℚ :=
  spacedAux use (enumCumprod betas) 1

/-- `self.timestep_map`: the retained original indices in increasing order. -/
def timestep_map (betas : List ℚ) (use : ℕ → Bool) : List ℕ :=
  (List.range betas.length).filter (fun i => use i)

/-- `self.original_num_steps = len(kwargs["betas"])`. -/
def original_num_steps (betas : List ℚ) : ℕ := betas.length

/-- `range(0, num_timesteps, stride)` for `stride ≥ 1`: the multiples of
`stride` below `num_timesteps`, in increasing order. -/
def strided_range (num_timesteps stride : ℕ) : List ℕ :=
  (List.range num_timesteps).filter (fun x => x % stride = 0)

/-- The `for i in range(1, num_timesteps)` search of `space_timesteps` in its
`ddim` branch: try strides `i, i + 1, ...` (`fuel` strides remain) and return
the first strided range with exactly `desired_count` elements. -/
def ddimFindAux (num_timesteps desired_count : ℕ) : ℕ → ℕ → Option (List ℕ)
  | 0, _ => none
  | fuel + 1, i =>
    if (strided_range num_timesteps i).length = desired_count then
      some (strided_range num_timesteps i)
    else ddimFindAux num_timesteps desired_count fuel (i + 1)

/-- The `ddimN` branch of `space_timesteps`: strides `1 ≤ i < num_timesteps`
are tried in increasing order; `none` models the `ValueError`. -/
def space_timesteps_ddim (num_timesteps desired_count : ℕ) : Option (List ℕ) :=
  ddimFindAux num_timesteps desired_count (num_timesteps - 1) 1

/-- Python 3 `round` on an exact rational: round half to even. -/
def pyRound (q : ℚ) : ℤ :=
  if q - (⌊q⌋ : ℚ) < 1 / 2 then ⌊q⌋
  else if 1 / 2 < q - (⌊q⌋ : ℚ) then ⌊q⌋ + 1
  else if ⌊q⌋ % 2 = 0 then ⌊q⌋ else ⌊q⌋ + 1

/-- The inner `for _ in range(section_count)` loop of `space_timesteps`:
append `start_idx + round(cur_idx)` and advance `cur_idx` by `frac_stride`. -/
def takenStepsAux (start_idx : ℕ) (frac_stride : ℚ) : ℕ → ℚ → List ℤ
  | 0, _ => []
  | k + 1, cur_idx =>
    ((start_idx : ℤ) + pyRound cur_idx)
      :: takenStepsAux start_idx frac_stride k (cur_idx + frac_stride)

/-- The steps taken in one section of `space_timesteps`: `frac_stride` is `1`
when `section_count ≤ 1` and `(size - 1) / (section_count - 1)` otherwise, and
`cur_idx` starts at `0.0`. -/
def section_taken_steps (start_idx size section_count : ℕ) : List ℤ :=
  let frac_stride : ℚ :=
    if section_count ≤ 1 then 1 else ((size : ℚ) - 1) / ((section_count : ℚ) - 1)
  takenStepsAux start_idx frac_stride section_count 0

/-- One section of `space_timesteps` together with its `size < section_count`
check (`none` models the `ValueError`). -/
def section_steps (start_idx size section_count : ℕ) : Option (List ℤ) :=
  if size < section_count then none
  else some (section_taken_steps start_idx size section_count)

/-- `np.linspace(a, b, n)` (with the `n = 1` case returning `[a]`). -/
noncomputable def linspace (a b : ℝ) (n : ℕ) : List ℝ :=
  if n = 1 then [a]
  else (List.range n).map (fun (i : ℕ) => a + (i : ℝ) * ((b - a) / ((n : ℝ) - 1)))

/-- `betas_for_alpha_bar`: discretize a cumulative-product target function,
capping each step's beta at `max_beta`. -/
noncomputable def betas_for_alpha_bar (num_diffusion_timesteps : ℕ) (alpha_bar : ℝ → ℝ)
    (max_beta : ℝ) : List ℝ :=
  (List.range num_diffusion_timesteps).map (fun (i : ℕ) =>
    min (1 - alpha_bar (((i : ℝ) + 1) / (num_diffusion_timesteps : ℝ))
          / alpha_bar ((i : ℝ) / (num_diffusion_timesteps : ℝ))) max_beta)

/-- `get_named_beta_schedule`: the `linear` and `cosine` schedule families;
`none` models the `NotImplementedError` branch. -/
noncomputable def get_named_beta_schedule (schedule_name : String)
    (num_diffusion_timesteps : ℕ) : Option (List ℝ) :=
  if schedule_name = "linear" then
    some (linspace ((1000 / (num_diffusion_timesteps : ℝ)) * 0.0001)
      ((1000 / (num_diffusion_timesteps : ℝ)) * 0.02) num_diffusion_timesteps)
  else if schedule_name = "cosine" then
    some (betas_for_alpha_bar num_diffusion_timesteps
      (fun t => Real.cos ((t + 0.008) / 1.008 * (Real.pi / 2)) ^ 2) 0.999)
  else none

/-- The dictionary returned by `p_mean_variance`. -/
structure MeanVarOut (α : Type) where
  mean : α
  variance : α
  log_variance : α
  pred_xstart : α

/-- `DDPM.p_sample` on a batch (tensors modelled as lists over the batch
dimension): `sample = out['mean']`, plus `exp(0.5 * log_variance) * noise` on
every batch element exactly when `t[0] != 0`. -/
noncomputable def ddpm_p_sample (p_mean_variance : List ℝ → List ℕ → MeanVarOut (List ℝ))
    (x : List ℝ) (t : List ℕ) (noise : List ℝ) : List ℝ × List ℝ :=
  let out := p_mean_variance x t
  let sample :=
    if t.headD 0 ≠ 0 then
      List.zipWith (fun m p => m + Real.exp (0.5 * Prod.fst p) * Prod.snd p)
        out.mean (out.log_variance.zip noise)
    else out.mean
  (sample, out.pred_xstart)

/-- `DDIM.predict_eps_from_x_start`:
`(sqrt_recip_alphas_cumprod[t] * x_t - pred_xstart) / sqrt_recipm1_alphas_cumprod[t]`. -/
noncomputable def predict_eps_from_x_start
    (sqrt_recip_alphas_cumprod sqrt_recipm1_alphas_cumprod : ℕ → ℝ)
    (x_t : ℝ) (t : ℕ) (pred_xstart : ℝ) : ℝ :=
  (sqrt_recip_alphas_cumprod t * x_t - pred_xstart) / sqrt_recipm1_alphas_cumprod t

/-- `DDIM.p_sample` on one tensor element (the cumulative-statistics arrays are
abstract index functions, indexed by the scalar time step `t`). -/
noncomputable def ddim_p_sample (p_mean_variance : ℝ → ℕ → MeanVarOut ℝ)
    (acp acp_prev sqrt_recip sqrt_recipm1 : ℕ → ℝ)
    (x : ℝ) (t : ℕ) (eta : ℝ) (noise : ℝ) : ℝ × ℝ :=
  let out := p_mean_variance x t
  let eps := predict_eps_from_x_start sqrt_recip sqrt_recipm1 x t out.pred_xstart
  let alpha_bar := acp t
  let alpha_bar_prev := acp_prev t
  let sigma := eta * Real.sqrt ((1 - alpha_bar_prev) / (1 - alpha_bar))
      * Real.sqrt (1 - alpha_bar / alpha_bar_prev)
  let mean_pred := out.pred_xstart * Real.sqrt alpha_bar_prev
      + Real.sqrt (1 - alpha_bar_prev - sigma ^ 2) * eps
  let sample := if t ≠ 0 then mean_pred + sigma * noise else mean_pred
  (sample, out.pred_xstart)

/-- `_WrappedModel.__call__`: remap each incoming step index through
`timestep_map`, then (only when `rescale_timesteps` is set) multiply by
`1000 / original_num_steps`, and call the wrapped model on the result. -/
noncomputable def wrapped_model_call {α : Type} (model : α → List ℝ → α) (tmap : List ℕ)
    (rescale_timesteps : Bool) (orig_num_steps : ℕ) (x : α) (ts : List ℕ) : α :=
  let new_ts : List ℝ := ts.map (fun t => ((tmap.getD t 0 : ℕ) : ℝ))
  let new_ts :=
    if rescale_timesteps then new_ts.map (fun v => v * (1000 / (orig_num_steps : ℝ)))
    else new_ts
  model x new_ts

/-- `SpacedDiffusion._scale_timesteps`: the identity (scaling is done by the
wrapped model). -/
def spaced_scale_timesteps (t : List ℕ) : List ℕ := t

/-- The descending index list traversed by `p_sample_loop`:
`list(range(factor * num_timesteps))[::-1]` with `factor = 1`. -/
def p_sample_loop_indices (num_timesteps : ℕ) : List ℕ :=
  let factor := 1
  (List.range (factor * num_timesteps)).reverse

/-- The outer time loop of `p_sample_loop` as a fold of an abstract loop body
over the descending index list (the source loop has no break and no early
return). -/
def p_sample_loop_fold {σ : Type} (num_timesteps : ℕ)
    (body : ℕ → σ → σ) (init : σ) : σ :=
  (p_sample_loop_indices num_timesteps).foldl (fun s idx => body idx s) init

lemma prodUpTo_cons_zero (a : ℚ) (l : List ℚ) : prodUpTo (a :: l) 0 = a := by
  simp [prodUpTo]

lemma prodUpTo_cons_succ (a : ℚ) (l : List ℚ) (k : ℕ) :
    prodUpTo (a :: l) (k + 1) = a * prodUpTo l k := by
  simp [prodUpTo]

lemma filter_map_comm {α β : Type} (f : α → β) (p : β → Bool) (l : List α) :
    (l.map f).filter p = (l.filter (fun a => p (f a))).map f := by
  induction l with
  | nil => rfl
  | cons a l ih =>
    by_cases h : p (f a) <;> simp [List.filter_cons, h, ih]

/-- Telescoping of the `SpacedDiffusion.__init__` loop: the cumulative product
of `1 - new_beta` over the first `k + 1` retained entries is the retained
cumulative product divided by the incoming `last_alpha_cumprod`. -/
lemma spacedAux_cumprod (use : ℕ → Bool) :
    ∀ (ps : List (ℕ × ℚ)) (last : ℚ), (∀ p ∈ ps, p.2 ≠ 0) →
      ∀ k : ℕ, k < (ps.filter (fun p => use p.1)).length →
      prodUpTo ((spacedAux use ps last).map (fun b => 1 - b)) k
        = ((ps.filter (fun p => use p.1)).getD k (0, 0)).2 / last := by
  intro ps
  induction ps with
  | nil => intro last hps k hk; simp at hk
  | cons p rest ih =>
    intro last hps k hk
    have hp2 : p.2 ≠ 0 := hps p (List.mem_cons_self p rest)
    have hrest : ∀ q ∈ rest, q.2 ≠ 0 := fun q hq => hps q (List.mem_cons_of_mem p hq)
    cases hu : use p.1 with
    | false =>
      rw [List.filter_cons_of_neg (by simp [hu])] at hk ⊢
      simpa [spacedAux, hu] using ih last hrest k hk
    | true =>
      rw [List.filter_cons_of_pos (by simp [hu])] at hk ⊢
      cases k with
      | zero =>
        simp [spacedAux, hu, prodUpTo_cons_zero, sub_sub_cancel]
      | succ k =>
        have hk' : k < (rest.filter (fun p => use p.1)).length := by
          simpa using hk
        have hrec := ih p.2 hrest k hk'
        simp only [spacedAux, hu, if_true, List.map_cons, prodUpTo_cons_succ,
          List.getD_cons_succ, sub_sub_cancel]
        rw [hrec, div_mul_div_comm,
          mul_comm p.2 (((rest.filter (fun p => use p.1)).getD k (0, 0)).2),
          mul_div_mul_right _ last hp2]

lemma prodUpTo_ne_zero (betas : List ℚ) (hb : ∀ b ∈ betas, b ≠ 1) (i : ℕ) :
    prodUpTo (alphasOf betas) i ≠ 0 := by
  apply List.prod_ne_zero
  intro h0
  have hmem := List.mem_of_mem_take h0
  obtain ⟨b, hbmem, hbeq⟩ := List.mem_map.mp hmem
  exact hb b hbmem (sub_eq_zero.mp hbeq).symm

lemma enumCumprod_filter (betas : List ℚ) (use : ℕ → Bool) :
    (enumCumprod betas).filter (fun p => use p.1)
      = (timestep_map betas use).map (fun i => (i, prodUpTo (alphasOf betas) i)) := by
  rw [enumCumprod, timestep_map, filter_map_comm]

/-- C1: respacing round-trip.  For a beta schedule all of whose entries differ
from `1` (so every cumulative product is nonzero and the divisions of
`SpacedDiffusion.__init__` are defined) and any retained-step predicate, the
cumulative product of `1 - beta` over the derived (respaced) schedule at its
`k`-th step equals the cumulative product of the original schedule at the
`k`-th retained original index: the derived betas telescope exactly. -/
theorem respacing_round_trip (betas : List ℚ) (use : ℕ → Bool)
    (hb : ∀ b ∈ betas, b ≠ 1) (k : ℕ)
    (hk : k < (timestep_map betas use).length) :
    prodUpTo (alphasOf (new_betas betas use)) k
      = prodUpTo (alphasOf betas) ((timestep_map betas use).getD k 0) := by
  have hne : ∀ p ∈ enumCumprod betas, p.2 ≠ 0 := by
    intro p hp
    obtain ⟨i, _, rfl⟩ := List.mem_map.mp hp
    exact prodUpTo_ne_zero betas hb i
  have hk' : k < ((enumCumprod betas).filter (fun p => use p.1)).length := by
    rw [enumCumprod_filter]
    simpa using hk
  have h := spacedAux_cumprod use (enumCumprod betas) 1 hne k hk'
  rw [enumCumprod_filter] at h
  have hget : ((timestep_map betas use).map
        (fun i => (i, prodUpTo (alphasOf betas) i))).getD k ((0 : ℕ), (0 : ℚ))
      = ((timestep_map betas use).getD k 0, prodUpTo (alphasOf betas)
          ((timestep_map betas use).getD k 0)) := by
    rw [List.getD_eq_getElem?_getD, List.getElem?_map,
      List.getElem?_eq_getElem hk]
    simp [List.getD_eq_getElem?_getD, List.getElem?_eq_getElem hk]
  rw [hget] at h
  simpa [alphasOf, new_betas] using h

/-- C1 witness: a concrete 3-step schedule respaced to its indices 1 and 2. -/
theorem respacing_round_trip_witness :
    prodUpTo (alphasOf (new_betas [1/2, 1/3, 1/4] (fun i => 1 ≤ i))) 1
      = prodUpTo (alphasOf [1/2, 1/3, 1/4])
          ((timestep_map [1/2, 1/3, 1/4] (fun i => 1 ≤ i)).getD 1 0) :=
  respacing_round_trip [1/2, 1/3, 1/4] (fun i => 1 ≤ i)
    (by norm_num) 1 (by decide)

lemma linspace_mem_le (a b : ℝ) (n : ℕ) (hn : 2 ≤ n) (hab : a ≤ b) :
    ∀ x ∈ linspace a b n, a ≤ x ∧ x ≤ b := by
  intro x hx
  rw [linspace, if_neg (by omega)] at hx
  obtain ⟨i, hi, rfl⟩ := List.mem_map.mp hx
  have hiN : i < n := List.mem_range.mp hi
  have hn2 : (2 : ℝ) ≤ (n : ℝ) := by exact_mod_cast hn
  have hd : 0 ≤ (b - a) / ((n : ℝ) - 1) :=
    div_nonneg (by linarith) (by linarith)
  have hi' : (i : ℝ) ≤ (n : ℝ) - 1 := by
    have : (i : ℝ) + 1 ≤ (n : ℝ) := by exact_mod_cast hiN
    linarith
  constructor
  · have := mul_nonneg (Nat.cast_nonneg i : (0 : ℝ) ≤ (i : ℝ)) hd
    linarith
  · have h2 : (i : ℝ) * ((b - a) / ((n : ℝ) - 1))
        ≤ ((n : ℝ) - 1) * ((b - a) / ((n : ℝ) - 1)) :=
      mul_le_mul_of_nonneg_right hi' hd
    have hne : ((n : ℝ) - 1) ≠ 0 := ne_of_gt (by linarith)
    have h3 : ((n : ℝ) - 1) * ((b - a) / ((n : ℝ) - 1)) = b - a := by
      rw [mul_comm, div_mul_eq_mul_div, mul_div_assoc, div_self hne, mul_one]
    linarith

/-- Each step of the cosine schedule is positive: for `0 ≤ t1 < t2 ≤ 1` the
cumulative-product target `cos²((t + 0.008) / 1.008 · π/2)` strictly decreases,
and is positive at `t1`. -/
lemma cosine_step_pos (t1 t2 : ℝ) (h0 : 0 ≤ t1) (h12 : t1 < t2) (h21 : t2 ≤ 1) :
    0 < 1 - Real.cos ((t2 + 0.008) / 1.008 * (Real.pi / 2)) ^ 2
          / Real.cos ((t1 + 0.008) / 1.008 * (Real.pi / 2)) ^ 2 := by
  have hpi := Real.pi_pos
  set c1 := (t1 + 0.008) / 1.008 * (Real.pi / 2) with hc1def
  set c2 := (t2 + 0.008) / 1.008 * (Real.pi / 2) with hc2def
  have ht1 : t1 < 1 := lt_of_lt_of_le h12 h21
  have hc1pos : 0 < c1 :=
    mul_pos (div_pos (by linarith) (by norm_num)) (by linarith)
  have hq1 : (t1 + 0.008) / 1.008 < 1 := by
    rw [div_lt_one (by norm_num)]; linarith
  have hq2 : (t2 + 0.008) / 1.008 ≤ 1 := by
    rw [div_le_one (by norm_num)]; linarith
  have hc1lt : c1 < Real.pi / 2 := by
    calc c1 < 1 * (Real.pi / 2) := by
          exact mul_lt_mul_of_pos_right hq1 (by linarith)
      _ = Real.pi / 2 := one_mul _
  have hc2le : c2 ≤ Real.pi / 2 := by
    calc c2 ≤ 1 * (Real.pi / 2) :=
          mul_le_mul_of_nonneg_right hq2 (by linarith)
      _ = Real.pi / 2 := one_mul _
  have hc12 : c1 < c2 := by
    apply mul_lt_mul_of_pos_right _ (by linarith)
    rw [div_lt_div_iff_of_pos_right (by norm_num)]
    linarith
  have hc2pos : 0 < c2 := lt_trans hc1pos hc12
  have hcos1pos : 0 < Real.cos c1 :=
    Real.cos_pos_of_mem_Ioo ⟨by linarith, hc1lt⟩
  have hcos2nonneg : 0 ≤ Real.cos c2 :=
    Real.cos_nonneg_of_mem_Icc ⟨by linarith, hc2le⟩
  have hcoslt : Real.cos c2 < Real.cos c1 :=
    Real.strictAntiOn_cos ⟨le_of_lt hc1pos, by linarith⟩
      ⟨le_of_lt hc2pos, by linarith⟩ hc12
  have hsq : Real.cos c2 ^ 2 < Real.cos c1 ^ 2 :=
    pow_lt_pow_left₀ hcoslt hcos2nonneg (by norm_num)
  have hsq1 : 0 < Real.cos c1 ^ 2 := pow_pos hcos1pos 2
  have := (div_lt_one hsq1).mpr hsq
  linarith

/-- C2 counterexample: the claim fails as stated.  For the `linear` schedule
with `N = 2`, the builder's final variance is `(1000 / 2) * 0.02 = 10 > 1`,
so not every produced variance lies in `(0, 1]` and the constructor's
assertion would fire. -/
theorem schedule_range_counterexample :
    ¬ (∀ N : ℕ, 1 ≤ N → ∀ l, get_named_beta_schedule "linear" N = some l →
        ∀ b ∈ l, 0 < b ∧ b ≤ 1) := by
  intro h
  have hlin : get_named_beta_schedule "linear" 2
      = some (linspace ((1000 / ((2 : ℕ) : ℝ)) * 0.0001)
          ((1000 / ((2 : ℕ) : ℝ)) * 0.02) 2) := by
    rw [get_named_beta_schedule, if_pos rfl]
  have h10 : 0 < (10 : ℝ) ∧ (10 : ℝ) ≤ 1 := by
    apply h 2 (by norm_num) _ hlin
    rw [linspace, if_neg (by norm_num)]
    refine List.mem_map.mpr ⟨1, by decide, ?_⟩
    push_cast
    norm_num
  linarith [h10.2]

/-- C2 (amended): every variance the builder produces lies in `(0, 1]` for the
`cosine` schedule at every length `N ≥ 1`, and for the `linear` schedule when
`N = 1` or `N ≥ 20` (the counterexample forces the restriction: for
`2 ≤ N ≤ 19` the linear endpoint `20 / N` exceeds `1` and the constructor's
assertion fires). -/
theorem schedule_range_amended (schedule_name : String) (N : ℕ) (hN : 1 ≤ N)
    (hok : schedule_name = "cosine" ∨ (schedule_name = "linear" ∧ (N = 1 ∨ 20 ≤ N)))
    (l : List ℝ) (hl : get_named_beta_schedule schedule_name N = some l) :
    ∀ b ∈ l, 0 < b ∧ b ≤ 1 := by
  rcases hok with hcos | ⟨hlin, hN'⟩
  · subst hcos
    rw [get_named_beta_schedule, if_neg (by decide), if_pos rfl] at hl
    simp only [Option.some.injEq] at hl
    subst hl
    intro b hb
    rw [betas_for_alpha_bar] at hb
    obtain ⟨i, hi, rfl⟩ := List.mem_map.mp hb
    have hiN : i < N := List.mem_range.mp hi
    have hNpos : (0 : ℝ) < (N : ℝ) := by
      exact_mod_cast Nat.lt_of_lt_of_le Nat.zero_lt_one hN
    have ht0 : 0 ≤ (i : ℝ) / (N : ℝ) := by positivity
    have ht12 : (i : ℝ) / (N : ℝ) < ((i : ℝ) + 1) / (N : ℝ) := by
      rw [div_lt_div_iff_of_pos_right hNpos]
      linarith
    have ht21 : ((i : ℝ) + 1) / (N : ℝ) ≤ 1 := by
      rw [div_le_one hNpos]
      exact_mod_cast Nat.succ_le_of_lt hiN
    have hpos := cosine_step_pos ((i : ℝ) / (N : ℝ)) (((i : ℝ) + 1) / (N : ℝ))
      ht0 ht12 ht21
    exact ⟨lt_min hpos (by norm_num), le_trans (min_le_right _ _) (by norm_num)⟩
  · subst hlin
    rw [get_named_beta_schedule, if_pos rfl] at hl
    simp only [Option.some.injEq] at hl
    subst hl
    rcases hN' with h1 | h20
    · subst h1
      intro b hb
      rw [linspace, if_pos rfl] at hb
      simp only [List.mem_singleton] at hb
      subst hb
      norm_num
    · intro b hb
      have hNpos : (0 : ℝ) < (N : ℝ) := by
        have : (20 : ℝ) ≤ (N : ℝ) := by exact_mod_cast h20
        linarith
      have ha : 0 < (1000 / (N : ℝ)) * 0.0001 :=
        mul_pos (div_pos (by norm_num) hNpos) (by norm_num)
      have hab : (1000 / (N : ℝ)) * 0.0001 ≤ (1000 / (N : ℝ)) * 0.02 :=
        mul_le_mul_of_nonneg_left (by norm_num)
          (le_of_lt (div_pos (by norm_num) hNpos))
      have hbd := linspace_mem_le _ _ N (by omega) hab b hb
      refine ⟨by linarith [hbd.1], ?_⟩
      have h20' : (20 : ℝ) ≤ (N : ℝ) := by exact_mod_cast h20
      have hend : (1000 / (N : ℝ)) * 0.02 ≤ 1 := by
        rw [div_mul_eq_mul_div, div_le_one hNpos]
        linarith
      linarith [hbd.2]

/-- C2 witness: the amended theorem applied to the `linear` schedule at
`N = 1`, whose single variance is `(1000 / 1) * 0.0001 = 0.1`. -/
theorem schedule_range_amended_witness :
    0 < (1000 / ((1 : ℕ) : ℝ)) * 0.0001 ∧ (1000 / ((1 : ℕ) : ℝ)) * 0.0001 ≤ 1 :=
  schedule_range_amended "linear" 1 (by norm_num)
    (Or.inr ⟨rfl, Or.inl rfl⟩) _ (by rw [get_named_beta_schedule, if_pos rfl])
    ((1000 / ((1 : ℕ) : ℝ)) * 0.0001)
    (by rw [linspace, if_pos rfl]; exact List.mem_singleton.mpr rfl)

lemma ddimFindAux_none (N K : ℕ) :
    ∀ (fuel i : ℕ),
      (∀ j, i ≤ j → j < i + fuel → (strided_range N j).length ≠ K) →
      ddimFindAux N K fuel i = none := by
  intro fuel
  induction fuel with
  | zero => intro i _; rfl
  | succ fuel ih =>
    intro i h
    simp only [ddimFindAux]
    rw [if_neg (h i le_rfl (by omega))]
    exact ih (i + 1) (fun j hj1 hj2 => h j (by omega) (by omega))

lemma ddimFindAux_some (N K : ℕ) :
    ∀ (fuel i j : ℕ), i ≤ j → j < i + fuel → (strided_range N j).length = K →
      ∃ j0, i ≤ j0 ∧ j0 < i + fuel ∧ (strided_range N j0).length = K
        ∧ (∀ j', i ≤ j' → j' < j0 → (strided_range N j').length ≠ K)
        ∧ ddimFindAux N K fuel i = some (strided_range N j0) := by
  intro fuel
  induction fuel with
  | zero => intro i j h1 h2 _; exact absurd h2 (by omega)
  | succ fuel ih =>
    intro i j h1 h2 h3
    by_cases hc : (strided_range N i).length = K
    · refine ⟨i, le_rfl, by omega, hc, fun j' hj1 hj2 => absurd hj2 (by omega), ?_⟩
      simp only [ddimFindAux]
      rw [if_pos hc]
    · have hji : i + 1 ≤ j := by
        rcases Nat.eq_or_lt_of_le h1 with rfl | h
        · exact absurd h3 hc
        · omega
      obtain ⟨j0, hj0a, hj0b, hj0c, hj0min, hj0eq⟩ := ih (i + 1) j hji (by omega) h3
      refine ⟨j0, by omega, by omega, hj0c, ?_, ?_⟩
      · intro j' hj1 hj2
        rcases Nat.eq_or_lt_of_le hj1 with rfl | h
        · exact hc
        · exact hj0min j' (by omega) hj2
      · simp only [ddimFindAux]
        rw [if_neg hc]
        exact hj0eq

/-- C3: fixed-stride respacing.  If some stride in `[1, N)` makes the
arithmetic progression of multiples of the stride below `N` contain exactly
`K` elements, `space_timesteps` (in its `ddimK` branch) returns that
progression for the smallest such stride — a list of exactly `K` retained
indices; if no stride in `[1, N)` yields exactly `K` elements, the call
fails. -/
theorem fixed_stride_respacing (N K : ℕ) :
    ((∀ i, 1 ≤ i → i < N → (strided_range N i).length ≠ K) →
        space_timesteps_ddim N K = none)
    ∧ (∀ i, 1 ≤ i → i < N → (strided_range N i).length = K →
        ∃ j, 1 ≤ j ∧ j < N ∧ (strided_range N j).length = K
          ∧ (∀ j', 1 ≤ j' → j' < j → (strided_range N j').length ≠ K)
          ∧ space_timesteps_ddim N K = some (strided_range N j)) := by
  constructor
  · intro h
    rw [space_timesteps_ddim]
    apply ddimFindAux_none
    intro j hj1 hj2
    exact h j hj1 (by omega)
  · intro i h1 h2 h3
    obtain ⟨j, hja, hjb, hjc, hjmin, hjeq⟩ :=
      ddimFindAux_some N K (N - 1) 1 i h1 (by omega) h3
    exact ⟨j, hja, by omega, hjc, hjmin, hjeq⟩

/-- C3 witness: `ddim5` on a 10-step process retains `[0, 2, 4, 6, 8]` with
smallest stride `2`. -/
theorem fixed_stride_respacing_witness :
    ∃ j, 1 ≤ j ∧ j < 10 ∧ (strided_range 10 j).length = 5
      ∧ (∀ j', 1 ≤ j' → j' < j → (strided_range 10 j').length ≠ 5)
      ∧ space_timesteps_ddim 10 5 = some (strided_range 10 j) :=
  (fixed_stride_respacing 10 5).2 2 (by decide) (by decide) (by decide)

/-- C4: the ancestral (DDPM) transition at time index 0 adds no noise: two
calls of `DDPM.p_sample` at time index 0 with different noise draws return
identical outputs, both equal to the predicted mean. -/
theorem ddpm_no_noise_at_zero (pmv : List ℝ → List ℕ → MeanVarOut (List ℝ))
    (x : List ℝ) (t : List ℕ) (noise1 noise2 : List ℝ) (h : t.headD 0 = 0) :
    ddpm_p_sample pmv x t noise1 = ddpm_p_sample pmv x t noise2
    ∧ (ddpm_p_sample pmv x t noise1).1 = (pmv x t).mean := by
  simp only [List.headD_eq_head?_getD] at h
  constructor <;> simp [ddpm_p_sample, h]

/-- C4 witness: a concrete model output at `t = [0]` with two different noise
draws. -/
theorem ddpm_no_noise_at_zero_witness :
    ddpm_p_sample (fun _ _ => ⟨[1], [2], [3], [4]⟩) [0] [0] [5]
      = ddpm_p_sample (fun _ _ => ⟨[1], [2], [3], [4]⟩) [0] [0] [7]
    ∧ (ddpm_p_sample (fun _ _ => ⟨[1], [2], [3], [4]⟩) [0] [0] [5]).1
      = ((fun (_ : List ℝ) (_ : List ℕ) =>
          (⟨[1], [2], [3], [4]⟩ : MeanVarOut (List ℝ))) [0] [0]).mean :=
  ddpm_no_noise_at_zero (fun _ _ => ⟨[1], [2], [3], [4]⟩) [0] [0] [5] [7] rfl

/-- C5: the DDIM transition with stochasticity parameter `eta = 0` is a pure
function of its inputs: repeated calls with different noise draws return
identical outputs, and the sample equals
`sqrt(cumprod_prev) * pred_xstart + sqrt(1 - cumprod_prev - sigma^2) * eps`
with `sigma = 0`, regardless of the drawn noise. -/
theorem ddim_eta_zero_deterministic (pmv : ℝ → ℕ → MeanVarOut ℝ)
    (acp acp_prev sqrt_recip sqrt_recipm1 : ℕ → ℝ) (x : ℝ) (t : ℕ)
    (noise1 noise2 : ℝ) :
    ddim_p_sample pmv acp acp_prev sqrt_recip sqrt_recipm1 x t 0 noise1
      = ddim_p_sample pmv acp acp_prev sqrt_recip sqrt_recipm1 x t 0 noise2
    ∧ (ddim_p_sample pmv acp acp_prev sqrt_recip sqrt_recipm1 x t 0 noise1).1
      = (pmv x t).pred_xstart * Real.sqrt (acp_prev t)
        + Real.sqrt (1 - acp_prev t - 0 ^ 2)
          * predict_eps_from_x_start sqrt_recip sqrt_recipm1 x t
              (pmv x t).pred_xstart := by
  constructor <;> simp [ddim_p_sample]

lemma zipWith_getElem?_some {α β γ : Type} (f : α → β → γ) :
    ∀ (l₁ : List α) (l₂ : List β) (j : ℕ) (a : α) (b : β),
      l₁[j]? = some a → l₂[j]? = some b →
      (List.zipWith f l₁ l₂)[j]? = some (f a b) := by
  intro l₁
  induction l₁ with
  | nil => intro l₂ j a b h1 _; simp at h1
  | cons x l₁ ih =>
    intro l₂ j a b h1 h2
    cases l₂ with
    | nil => simp at h2
    | cons y l₂ =>
      cases j with
      | zero =>
        simp only [List.getElem?_cons_zero, Option.some.injEq] at h1 h2
        simp [List.zipWith_cons_cons, h1, h2]
      | succ j =>
        simp only [List.getElem?_cons_succ] at h1 h2
        simpa [List.zipWith_cons_cons] using ih l₂ j a b h1 h2

lemma getElem?_eq_some_getD {α : Type} (l : List α) (j : ℕ) (d : α)
    (h : j < l.length) : l[j]? = some (l.getD j d) := by
  rw [List.getD_eq_getElem?_getD, List.getElem?_eq_getElem h]
  rfl

/-- C10: batch-level noise gating in `DDPM.p_sample` is decided by the first
batch element alone.  When `t[0] != 0` every batch element `j` receives the
noise term (even an element whose own time index is 0); when `t[0] == 0` no
element receives noise. -/
theorem ddpm_batch_noise_gating (pmv : List ℝ → List ℕ → MeanVarOut (List ℝ))
    (x : List ℝ) (t : List ℕ) (noise : List ℝ) (j : ℕ)
    (hj : j < (pmv x t).mean.length)
    (hlv : (pmv x t).log_variance.length = (pmv x t).mean.length)
    (hn : noise.length = (pmv x t).mean.length) :
    (t.headD 0 ≠ 0 →
      ((ddpm_p_sample pmv x t noise).1)[j]?
        = some ((pmv x t).mean.getD j 0
            + Real.exp (0.5 * (pmv x t).log_variance.getD j 0) * noise.getD j 0))
    ∧ (t.headD 0 = 0 →
      ((ddpm_p_sample pmv x t noise).1)[j]? = ((pmv x t).mean)[j]?) := by
  constructor
  · intro h
    simp only [List.headD_eq_head?_getD] at h
    have hm := getElem?_eq_some_getD (pmv x t).mean j 0 hj
    have hlv' := getElem?_eq_some_getD (pmv x t).log_variance j 0 (by omega)
    have hn' := getElem?_eq_some_getD noise j 0 (by omega)
    have hzip := zipWith_getElem?_some Prod.mk (pmv x t).log_variance noise j _ _ hlv' hn'
    have hz := zipWith_getElem?_some
      (fun m p => m + Real.exp (0.5 * Prod.fst p) * Prod.snd p)
      (pmv x t).mean ((pmv x t).log_variance.zip noise) j _ _ hm hzip
    simpa [ddpm_p_sample, h, List.zip] using hz
  · intro h
    simp only [List.headD_eq_head?_getD] at h
    simp [ddpm_p_sample, h]

/-- C10 witness: batch `t = [5, 0]` — the second element has its own time
index 0 yet still receives the noise term, because `t[0] = 5 ≠ 0`. -/
theorem ddpm_batch_noise_gating_witness :
    ((5 : ℕ) ≠ 0 →
      ((ddpm_p_sample (fun _ _ => ⟨[1, 2], [3, 4], [5, 6], [7, 8]⟩)
          [0, 0] [5, 0] [9, 10]).1)[1]?
        = some ((2 : ℝ) + Real.exp (0.5 * 6) * 10))
    ∧ ((5 : ℕ) = 0 →
      ((ddpm_p_sample (fun _ _ => ⟨[1, 2], [3, 4], [5, 6], [7, 8]⟩)
          [0, 0] [5, 0] [9, 10]).1)[1]? = some 2) :=
  ddpm_batch_noise_gating (fun _ _ => ⟨[1, 2], [3, 4], [5, 6], [7, 8]⟩)
    [0, 0] [5, 0] [9, 10] 1 (by decide) (by decide) (by decide)

/-- C6: model index remapping order and single application.  The respaced
process's `_scale_timesteps` is the identity, and the wrapped model maps each
new step index through `timestep_map` first, then applies the rescale
transform (multiplication by `1000 / original_num_steps`, the original
schedule length) exactly when `rescale_timesteps` is set — so the transform
is applied exactly once per model call. -/
theorem index_remap_once {α : Type} (model : α → List ℝ → α) (betas : List ℚ)
    (use : ℕ → Bool) (rescale : Bool) (x : α) (ts : List ℕ) :
    spaced_scale_timesteps ts = ts
    ∧ wrapped_model_call model (timestep_map betas use) rescale
        (original_num_steps betas) x (spaced_scale_timesteps ts)
      = model x (ts.map (fun t =>
          if rescale then ((timestep_map betas use).getD t 0 : ℝ)
              * (1000 / (original_num_steps betas : ℝ))
          else ((timestep_map betas use).getD t 0 : ℝ))) := by
  refine ⟨rfl, ?_⟩
  cases rescale
  · simp [wrapped_model_call, spaced_scale_timesteps]
  · simp only [wrapped_model_call, spaced_scale_timesteps, if_true,
      List.map_map]
    rfl

/-- C7 counterexample: the claim's first conjunct fails on the code.  For the
schedule `[1/2, 1/2]` the cached posterior-variance array keeps `0` at index 0
(it is not replaced), while the posterior variance at index 1 is `1/3`. -/
theorem posterior_variance_counterexample :
    (posterior_variance [1/2, 1/2]).getD 0 0
      ≠ (posterior_variance [1/2, 1/2]).getD 1 0 := by
  norm_num [posterior_variance, alphas_cumprod_prev, alphas_cumprod, alphasOf,
    prodUpTo, List.range_succ]

/-- C7 (amended): only the clipped log-variance cache replaces the first
entry: for every schedule of length ≥ 2,
`posterior_log_variance_clipped[0] = log(posterior_variance[1])`, while the
cached posterior-variance array itself still holds
`betas[0] * (1 - 1) / (1 - alphas_cumprod[0]) = 0` at index 0. -/
theorem posterior_log_variance_clipped_amended (betas : List ℚ)
    (h2 : 2 ≤ betas.length) :
    (posterior_log_variance_clipped betas).getD 0 0
      = Real.log (((posterior_variance betas).getD 1 0 : ℚ) : ℝ)
    ∧ (posterior_variance betas).getD 0 0 = 0 := by
  constructor
  · simp [posterior_log_variance_clipped]
  · cases betas with
    | nil => simp at h2
    | cons b0 rest =>
      simp [posterior_variance, alphas_cumprod_prev, List.range_succ_eq_map]

/-- C7 witness: the amended statement at the concrete schedule `[1/2, 1/2]`. -/
theorem posterior_log_variance_clipped_amended_witness :
    (posterior_log_variance_clipped [1/2, 1/2]).getD 0 0
      = Real.log (((posterior_variance [1/2, 1/2]).getD 1 0 : ℚ) : ℝ)
    ∧ (posterior_variance [1/2, 1/2]).getD 0 0 = 0 :=
  posterior_log_variance_clipped_amended [1/2, 1/2] (by decide)

lemma pyRound_intCast (n : ℤ) : pyRound ((n : ℤ) : ℚ) = n := by
  have h1 : ((n : ℚ) - (⌊(n : ℚ)⌋ : ℚ)) = 0 := by simp
  rw [pyRound, if_pos (by rw [h1]; norm_num)]
  simp

lemma takenStepsAux_eq_map (start_idx : ℕ) (fs : ℚ) :
    ∀ (k : ℕ) (cur : ℚ), takenStepsAux start_idx fs k cur
      = (List.range k).map
          (fun (i : ℕ) => (start_idx : ℤ) + pyRound (cur + (i : ℚ) * fs)) := by
  intro k
  induction k with
  | zero => intro cur; rfl
  | succ k ih =>
    intro cur
    rw [List.range_succ_eq_map, List.map_cons, List.map_map]
    simp only [takenStepsAux]
    rw [ih (cur + fs)]
    congr 1
    · norm_num
    · apply List.map_congr_left
      intro i _
      simp only [Function.comp_apply]
      congr 1
      push_cast
      ring_nf

/-- C8: section-based respacing placement.  For a section starting at
`start_idx` of size `S` requesting `K` steps: when `1 < K ≤ S` the retained
positions are exactly `start + round(i * (S - 1) / (K - 1))` for `i` in
`[0, K)` (Python banker's rounding) and both the section's first position
`start` and last position `start + S - 1` are among them; when `K ≤ 1` every
taken position equals `start`; requesting `K > S` fails. -/
theorem section_placement (start_idx S K : ℕ) :
    (1 < K → K ≤ S →
      section_steps start_idx S K
          = some ((List.range K).map (fun (i : ℕ) =>
              (start_idx : ℤ)
                + pyRound ((i : ℚ) * (((S : ℚ) - 1) / ((K : ℚ) - 1)))))
        ∧ (start_idx : ℤ) ∈ section_taken_steps start_idx S K
        ∧ ((start_idx : ℤ) + ((S : ℤ) - 1)) ∈ section_taken_steps start_idx S K)
    ∧ (K ≤ 1 → ∀ p ∈ section_taken_steps start_idx S K, p = (start_idx : ℤ))
    ∧ (S < K → section_steps start_idx S K = none) := by
  refine ⟨?_, ?_, ?_⟩
  · intro hK hKS
    have hfs : section_taken_steps start_idx S K
        = (List.range K).map (fun (i : ℕ) =>
            (start_idx : ℤ)
              + pyRound ((i : ℚ) * (((S : ℚ) - 1) / ((K : ℚ) - 1)))) := by
      rw [section_taken_steps]
      rw [if_neg (by omega)]
      rw [takenStepsAux_eq_map]
      apply List.map_congr_left
      intro i _
      congr 1
      ring_nf
    refine ⟨?_, ?_, ?_⟩
    · rw [section_steps, if_neg (by omega), hfs]
    · rw [hfs]
      refine List.mem_map.mpr ⟨0, List.mem_range.mpr (by omega), ?_⟩
      rw [show ((0 : ℕ) : ℚ) * (((S : ℚ) - 1) / ((K : ℚ) - 1))
            = (((0 : ℤ) : ℤ) : ℚ) by push_cast; ring]
      rw [pyRound_intCast]
      simp
    · rw [hfs]
      refine List.mem_map.mpr ⟨K - 1, List.mem_range.mpr (by omega), ?_⟩
      have hKne : ((K : ℚ) - 1) ≠ 0 := by
        have : (2 : ℚ) ≤ (K : ℚ) := by exact_mod_cast hK
        exact ne_of_gt (by linarith)
      have harg : ((K - 1 : ℕ) : ℚ) * (((S : ℚ) - 1) / ((K : ℚ) - 1))
          = (S : ℚ) - 1 := by
        rw [Nat.cast_sub (by omega : 1 ≤ K)]
        push_cast
        rw [mul_comm, div_mul_cancel₀ _ hKne]
      rw [harg, show ((S : ℚ) - 1) = (((S : ℤ) - 1 : ℤ) : ℚ) by push_cast; ring,
        pyRound_intCast]
  · intro hK1 p hp
    rw [section_taken_steps, if_pos hK1, takenStepsAux_eq_map] at hp
    obtain ⟨i, hi, rfl⟩ := List.mem_map.mp hp
    have hi0 : i = 0 := by
      have := List.mem_range.mp hi
      omega
    subst hi0
    rw [show ((0 : ℚ) + ((0 : ℕ) : ℚ) * 1) = (((0 : ℤ) : ℤ) : ℚ) by push_cast; ring]
    rw [pyRound_intCast]
    simp
  · intro hSK
    rw [section_steps, if_pos hSK]

/-- C8 witness: a section of size 10 at start 0 requesting 3 steps takes
positions `[0, 4, 9]` (with `round(4.5) = 4` under banker's rounding), and
includes both endpoints. -/
theorem section_placement_witness :
    section_steps 0 10 3
        = some ((List.range 3).map (fun (i : ℕ) =>
            ((0 : ℕ) : ℤ)
              + pyRound ((i : ℚ) * ((((10 : ℕ) : ℚ) - 1) / (((3 : ℕ) : ℚ) - 1)))))
      ∧ ((0 : ℕ) : ℤ) ∈ section_taken_steps 0 10 3
      ∧ (((0 : ℕ) : ℤ) + (((10 : ℕ) : ℤ) - 1)) ∈ section_taken_steps 0 10 3 :=
  (section_placement 0 10 3).1 (by decide) (by decide)

lemma foldl_add_one (l : List ℕ) :
    ∀ n : ℕ, l.foldl (fun s _ => s + 1) n = n + l.length := by
  induction l with
  | nil => intro n; simp
  | cons a l ih =>
    intro n
    rw [List.foldl_cons, ih (n + 1), List.length_cons]
    omega

/-- C9: sampling-loop termination and traversal order.  The outer loop of
`p_sample_loop` runs over exactly `factor * num_timesteps` indices with the
annealing repeat factor fixed at `factor = 1`; the index descends strictly
monotonically from `num_timesteps - 1` to `0`, and a fold of any loop body
over the index list (the source loop has no early exit) performs exactly
`num_timesteps` iterations. -/
theorem sampling_loop_traversal (N : ℕ) (hN : 1 ≤ N) :
    (p_sample_loop_indices N).length = 1 * N
    ∧ (p_sample_loop_indices N).Pairwise (fun a b => b < a)
    ∧ (p_sample_loop_indices N).head? = some (N - 1)
    ∧ (p_sample_loop_indices N).getLast? = some 0
    ∧ p_sample_loop_fold N (fun _ (s : ℕ) => s + 1) 0 = N := by
  obtain ⟨m, rfl⟩ : ∃ m, N = m + 1 := ⟨N - 1, by omega⟩
  refine ⟨?_, ?_, ?_, ?_, ?_⟩
  · simp [p_sample_loop_indices]
  · rw [p_sample_loop_indices]
    simp only [one_mul]
    exact List.pairwise_reverse.mpr (by simpa using List.pairwise_lt_range (m + 1))
  · rw [p_sample_loop_indices]
    simp only [one_mul]
    rw [List.head?_reverse, List.range_succ, List.getLast?_concat]
    simp
  · rw [p_sample_loop_indices]
    simp only [one_mul]
    rw [List.getLast?_reverse, List.range_succ_eq_map]
    rfl
  · rw [p_sample_loop_fold, foldl_add_one]
    simp [p_sample_loop_indices]

/-- C9 witness: the loop over a 3-step process visits `[2, 1, 0]`. -/
theorem sampling_loop_traversal_witness :
    (p_sample_loop_indices 3).length = 1 * 3
    ∧ (p_sample_loop_indices 3).Pairwise (fun a b => b < a)
    ∧ (p_sample_loop_indices 3).head? = some (3 - 1)
    ∧ (p_sample_loop_indices 3).getLast? = some 0
    ∧ p_sample_loop_fold 3 (fun _ (s : ℕ) => s + 1) 0 = 3 :=
  sampling_loop_traversal 3 (by decide)

end GaussianDiffusion
